import Mathlib

/-! # Verification of `processing_tools.py` (mTMS–MRI manuscript scripts)

Shallow embedding of the two numerically meaningful routines of the
repository, `fwhm_efield` and `read_efield`, together with theorems about
the specified behaviour.  Floating-point arithmetic is idealised as exact
arithmetic: profile data lives in `ℚ`, and the interpolated crossing
positions produced by `scipy.signal.peak_widths` (whose relative height
`1 - 1/np.sqrt(2)` is irrational) live in the ring `ℚ[√2]`, represented
exactly by pairs of rationals. -/

unseal Rat.add Rat.sub Rat.mul Rat.inv

namespace MtmsMri

/-! ## Exact arithmetic in ℚ[√2] -/

/-- A number `a + b·√2` with `a b : ℚ`.  Values produced by
`scipy.signal.peak_widths` at `rel_height = 1 - 1/√2` lie in this ring. -/
structure Qr2 where
  a : ℚ
  b : ℚ
  deriving DecidableEq, Repr

def Qr2.ofQ (q : ℚ) : Qr2 := ⟨q, 0⟩

def Qr2.add (x y : Qr2) : Qr2 := ⟨x.a + y.a, x.b + y.b⟩

def Qr2.sub (x y : Qr2) : Qr2 := ⟨x.a - y.a, x.b - y.b⟩

/-- Scalar multiplication by a rational. -/
def Qr2.smul (c : ℚ) (x : Qr2) : Qr2 := ⟨c * x.a, c * x.b⟩

/-- Division by a rational. -/
def Qr2.divQ (x : Qr2) (c : ℚ) : Qr2 := ⟨x.a / c, x.b / c⟩

/-- Sign (−1, 0 or 1) of `a + b·√2`, decided exactly by comparing `a²`
against `2·b²` when `a` and `b` have opposite signs. -/
def Qr2.sign (x : Qr2) : Int :=
  if x.b = 0 then
    if x.a < 0 then -1 else if x.a = 0 then 0 else 1
  else if 0 < x.b then
    if 0 ≤ x.a then 1
    else if x.a ^ 2 < 2 * x.b ^ 2 then 1
    else if 2 * x.b ^ 2 < x.a ^ 2 then -1
    else 0
  else
    if x.a ≤ 0 then -1
    else if 2 * x.b ^ 2 < x.a ^ 2 then 1
    else if x.a ^ 2 < 2 * x.b ^ 2 then -1
    else 0

/-- Boolean strict comparison `x < y` on ℚ[√2]. -/
def Qr2.ltB (x y : Qr2) : Bool := (y.sub x).sign = 1

/-- Integer square root by bisection; `fuel` bounds the number of steps and
`n + 2` steps always suffice.  (A structurally recursive replacement for
`Nat.sqrt`, so that proofs can evaluate it by kernel reduction.) -/
def isqrtGo (n : Nat) : Nat → Nat → Nat → Nat
  | 0, lo, _ => lo
  | fuel + 1, lo, hi =>
    let m := (lo + hi) / 2
    if m = lo then lo
    else if m * m ≤ n then isqrtGo n fuel m hi
    else isqrtGo n fuel lo m

/-- Integer square root: largest `k` with `k*k ≤ n`. -/
def isqrt (n : Nat) : Nat := isqrtGo n (n + 2) 0 (n + 1)

/-- Exact floor of `a + b·√2`.  Writing the value as `(A + B·√2)/D` over a
common positive denominator `D`, the integer `t = ⌊B·√2⌋` is computed from
the integer square root of `2·B²` (exact because `√2` is irrational, so
`2·B²` is a perfect square only for `B = 0`); the floor is then `⌊(A+t)/D⌋`
or that plus one, decided by an exact sign test. -/
def Qr2.floorI (x : Qr2) : Int :=
  let A : Int := x.a.num * (x.b.den : Int)
  let B : Int := x.b.num * (x.a.den : Int)
  let D : Int := (x.a.den : Int) * (x.b.den : Int)
  let t : Int :=
    if 0 ≤ B then (isqrt (2 * B.natAbs ^ 2) : Int)
    else -(isqrt (2 * B.natAbs ^ 2) : Int) - 1
  let k0 : Int := (A + t).fdiv D
  if 0 ≤ (x.sub (Qr2.ofQ ((k0 + 1 : Int) : ℚ))).sign then k0 + 1 else k0

/-- `np.round` (round half to even) on ℚ[√2], followed by `.astype(int)`.
When `b ≠ 0` the value is irrational and can never be an exact half, so the
half-to-even tie rule only matters on the rational axis. -/
def Qr2.roundEven (x : Qr2) : Int :=
  if x.b = 0 ∧ x.a.den = 2 then
    let f : Int := x.a.num.fdiv 2
    if f % 2 = 0 then f else f + 1
  else (x.add (Qr2.ofQ (1 / 2))).floorI

/-! ## Rational vector helpers -/

/-- `np.ndarray.min` of a nonempty list (0 on the empty list). -/
def listMin : List ℚ → ℚ
  | [] => 0
  | q :: qs => qs.foldl min q

/-- `np.ndarray.max` of a nonempty list (0 on the empty list). -/
def listMax : List ℚ → ℚ
  | [] => 0
  | q :: qs => qs.foldl max q

def addV (u v : List ℚ) : List ℚ := List.zipWith (· + ·) u v

def smulV (c : ℚ) (v : List ℚ) : List ℚ := v.map (fun q => c * q)

def dotV (u v : List ℚ) : ℚ := (List.zipWith (· * ·) u v).sum

/-! ## Least-squares polynomial fit (`np.poly1d(np.polyfit(x, y, n))(x)`)

In exact arithmetic the vector of fitted values of any least-squares
polynomial fit equals the orthogonal projection of `y` onto the span of the
Vandermonde columns `[x^0, x^1, …, x^n]` (this is independent of which
least-squares solution the solver returns, and of `np.polyfit`'s internal
column rescaling, both of which leave the column span unchanged).  The
projection is computed by Gram–Schmidt orthogonalisation, skipping zero
vectors, which keeps the span and hence the projection. -/

def vandermonde (x : List ℚ) (n : Nat) : List (List ℚ) :=
  (List.range (n + 1)).map (fun j => x.map (fun xi => xi ^ j))

/-- One Gram–Schmidt step: orthogonalise `v` against the vectors in `us`. -/
def gsStep (us : List (List ℚ)) (v : List ℚ) : List ℚ :=
  us.foldl
    (fun w u => if dotV u u = 0 then w else addV w (smulV (-(dotV u w) / dotV u u) u))
    v

def gramSchmidt (cols : List (List ℚ)) : List (List ℚ) :=
  cols.foldl (fun us v => us ++ [gsStep us v]) []

/-- One step of the projection onto an orthogonal family. -/
def projStep (y acc u : List ℚ) : List ℚ :=
  if dotV u u = 0 then acc else addV acc (smulV (dotV u y / dotV u u) u)

/-- Orthogonal projection of `y` (length `m`) onto the span of `us`. -/
def projColumns (us : List (List ℚ)) (m : Nat) (y : List ℚ) : List ℚ :=
  us.foldl (projStep y) (List.replicate m 0)

/-- Fitted values `np.poly1d(np.polyfit(x_raw, y_raw, n))(x_raw)`
(lines 74–75 of `processing_tools.py`), as the exact orthogonal projection
of `y` onto the Vandermonde column span. -/
def polyfitEval (x y : List ℚ) (n : Nat) : List ℚ :=
  projColumns (gramSchmidt (vandermonde x n)) x.length y

/-! ## The rescaling step (line 77) -/

/-- Line 77: `y_fit = y_fit.min() + ((y_fit - y_fit.min())*(1-y_fit.min()))/(y_fit.max() - y_fit.min())`.
In Python a zero peak-to-peak range makes this a `0.0/0.0 = nan`; in the
rational model `0/0 = 0`, so a flat curve is mapped to itself — in both
cases the curve then has no strict local maxima, so the downstream
behaviour (no peaks detected) agrees. -/
def rescaleCurve (l : List ℚ) : List ℚ :=
  let m := listMin l
  let M := listMax l
  l.map (fun v => m + ((v - m) * (1 - m)) / (M - m))

/-! ## `scipy.signal.find_peaks` (height filter only, as called on line 82) -/

/-- Inner plateau scan of scipy `_local_maxima_1d`: first `j ≥ i + 1` with
`j ≥ iMax` or `x[j] ≠ x[i]`. -/
def plateauEnd (x : List ℚ) (iMax : Nat) (xi : ℚ) : Nat → Nat → Nat
  | 0, j => j
  | fuel + 1, j =>
    if j < iMax ∧ x.getD j 0 = xi then plateauEnd x iMax xi fuel (j + 1) else j

/-- Main loop of scipy `_local_maxima_1d`: midpoints of strict local maxima
(with plateau handling), scanning `i = 1 … n−2`. -/
def localMaxAux (x : List ℚ) (iMax : Nat) : Nat → Nat → List Nat
  | 0, _ => []
  | fuel + 1, i =>
    if i < iMax then
      if x.getD (i - 1) 0 < x.getD i 0 then
        let iAhead := plateauEnd x iMax (x.getD i 0) x.length (i + 1)
        if x.getD iAhead 0 < x.getD i 0 then
          (i + (iAhead - 1)) / 2 :: localMaxAux x iMax fuel (iAhead + 1)
        else localMaxAux x iMax fuel (i + 1)
      else localMaxAux x iMax fuel (i + 1)
    else []

def localMaxima (x : List ℚ) : List Nat := localMaxAux x (x.length - 1) (x.length + 1) 1

/-- `scipy.signal.find_peaks(x, height=hmin)`: local maxima whose height is
at least `hmin`. -/
def findPeaks (x : List ℚ) (hmin : ℚ) : List Nat :=
  (localMaxima x).filter (fun p => hmin ≤ x.getD p 0)

/-! ## `scipy.signal.peak_prominences` / `peak_widths` (line 83) -/

/-- Left base scan of scipy `_peak_prominences`: walk left from the peak
while `x[i] ≤ x[peak]`, tracking the minimum and its position. -/
def promLeftAux (x : List ℚ) (xp : ℚ) : Nat → Nat → ℚ → Nat → ℚ × Nat
  | 0, _, lm, lb => (lm, lb)
  | fuel + 1, i, lm, lb =>
    if x.getD i 0 ≤ xp then
      let lm' := if x.getD i 0 < lm then x.getD i 0 else lm
      let lb' := if x.getD i 0 < lm then i else lb
      if i = 0 then (lm', lb') else promLeftAux x xp fuel (i - 1) lm' lb'
    else (lm, lb)

/-- Right base scan of scipy `_peak_prominences`. -/
def promRightAux (x : List ℚ) (xp : ℚ) (iMax : Nat) : Nat → Nat → ℚ → Nat → ℚ × Nat
  | 0, _, rm, rb => (rm, rb)
  | fuel + 1, i, rm, rb =>
    if i ≤ iMax ∧ x.getD i 0 ≤ xp then
      let rm' := if x.getD i 0 < rm then x.getD i 0 else rm
      let rb' := if x.getD i 0 < rm then i else rb
      promRightAux x xp iMax fuel (i + 1) rm' rb'
    else (rm, rb)

structure PromData where
  prominence : ℚ
  leftBase : Nat
  rightBase : Nat
  deriving DecidableEq, Repr

/-- scipy `peak_prominences` for a single peak (no `wlen` window). -/
def peakProminence (x : List ℚ) (p : Nat) : PromData :=
  let xp := x.getD p 0
  let lf := promLeftAux x xp (x.length + 2) p xp p
  let rt := promRightAux x xp (x.length - 1) (x.length + 2) p xp p
  ⟨xp - max lf.1 rt.1, lf.2, rt.2⟩

/-- The `rel_height = 1 - 1/np.sqrt(2)` passed on line 83, i.e. `1 - √2/2`. -/
def relHeight : Qr2 := ⟨1, -(1 / 2)⟩

/-- Left intersection scan of scipy `_peak_widths`: walk left from the peak
while `height < x[i]` and the left base has not been reached. -/
def widthLeftI (x : List ℚ) (height : Qr2) (iMin : Nat) : Nat → Nat → Nat
  | 0, i => i
  | fuel + 1, i =>
    if iMin < i ∧ Qr2.ltB height (Qr2.ofQ (x.getD i 0)) then
      widthLeftI x height iMin fuel (i - 1)
    else i

/-- Right intersection scan of scipy `_peak_widths`. -/
def widthRightI (x : List ℚ) (height : Qr2) (iMax : Nat) : Nat → Nat → Nat
  | 0, i => i
  | fuel + 1, i =>
    if i < iMax ∧ Qr2.ltB height (Qr2.ofQ (x.getD i 0)) then
      widthRightI x height iMax fuel (i + 1)
    else i

structure WidthData where
  width : Qr2
  wHeight : Qr2
  leftIp : Qr2
  rightIp : Qr2
  deriving DecidableEq, Repr

/-- scipy `_peak_widths` for one peak: evaluation height
`x[peak] - prominence * rel_height`, boundary sample scans bounded by the
prominence bases, and linear interpolation of the crossing positions. -/
def peakWidth (x : List ℚ) (p : Nat) : WidthData :=
  let pr := peakProminence x p
  let height := (Qr2.ofQ (x.getD p 0)).sub (Qr2.smul pr.prominence relHeight)
  let li := widthLeftI x height pr.leftBase (x.length + 2) p
  let leftIp :=
    if Qr2.ltB (Qr2.ofQ (x.getD li 0)) height then
      (Qr2.ofQ (li : ℚ)).add ((height.sub (Qr2.ofQ (x.getD li 0))).divQ (x.getD (li + 1) 0 - x.getD li 0))
    else Qr2.ofQ (li : ℚ)
  let ri := widthRightI x height pr.rightBase (x.length + 2) p
  let rightIp :=
    if Qr2.ltB (Qr2.ofQ (x.getD ri 0)) height then
      (Qr2.ofQ (ri : ℚ)).sub ((height.sub (Qr2.ofQ (x.getD ri 0))).divQ (x.getD (ri - 1) 0 - x.getD ri 0))
    else Qr2.ofQ (ri : ℚ)
  ⟨rightIp.sub leftIp, height, leftIp, rightIp⟩

/-! ## `fwhm_efield` (lines 69–109) -/

/-- The Python exceptions that `fwhm_efield` can actually raise. -/
inductive PyErr where
  | indexError
  | valueError
  deriving DecidableEq, Repr

/-- The returned tuple `(xfwhm, yfwhm, t1_ind, t2_ind)`: the scalar
`half_widths[0][0] * sampling_freq`, and the per-peak arrays
`half_widths[1]`, `half_widths[2].round().astype(int)`,
`half_widths[3].round().astype(int)`. -/
structure FwhmResult where
  xfwhm : Qr2
  yfwhm : List Qr2
  t1_ind : List Int
  t2_ind : List Int
  deriving DecidableEq, Repr

/-- Outcome of a `fwhm_efield` call: a returned tuple or a raised exception. -/
inductive FwhmOut where
  | ok (r : FwhmResult)
  | raise (e : PyErr)
  deriving DecidableEq, Repr

/-- Fitted curve after the rescaling of line 77. -/
def yFitOf (x y : List ℚ) (n : Nat) : List ℚ := rescaleCurve (polyfitEval x y n)

/-- Line 81: `y_fit_abs = np.abs(y_fit)`. -/
def yFitAbsOf (x y : List ℚ) (n : Nat) : List ℚ := (yFitOf x y n).map (fun v => |v|)

/-- Line 82: `peaks, _ = find_peaks(y_fit_abs, height=0.5)`. -/
def detectedPeaks (x y : List ℚ) (n : Nat) : List Nat := findPeaks (yFitAbsOf x y n) (1 / 2)

/-- Line 83: `half_widths = peak_widths(y_fit_abs, peaks, rel_height=1-1/np.sqrt(2))`,
grouped per peak. -/
def halfWidthsOf (x y : List ℚ) (n : Nat) : List WidthData :=
  (detectedPeaks x y n).map (peakWidth (yFitAbsOf x y n))

/-- `fwhm_efield(x_raw, y_raw, n, id_vis)` (lines 69–109).  An input with
fewer than two samples raises `IndexError` at `x_raw[1]` (line 71); a
length mismatch raises `ValueError` inside `np.polyfit` (line 74); an empty
peak list raises `IndexError` at `half_widths[0][0]` (line 91).  The
plotting branch (lines 94–107) draws a figure and does not touch the
returned values, so it is modelled as having no effect on the result. -/
def fwhm_efield (x_raw y_raw : List ℚ) (n : Nat) (id_vis : Bool) : FwhmOut :=
  match x_raw with
  | x0 :: x1 :: _ =>
    let sampling_freq := x1 - x0
    if x_raw.length = y_raw.length then
      let hw := halfWidthsOf x_raw y_raw n
      let t1_ind := hw.map (fun w => w.leftIp.roundEven)
      let t2_ind := hw.map (fun w => w.rightIp.roundEven)
      match hw with
      | [] => .raise .indexError
      | w :: _ =>
        let _vis := id_vis
        .ok ⟨Qr2.smul sampling_freq w.width, hw.map (fun w => w.wHeight), t1_ind, t2_ind⟩
    else .raise .valueError
  | _ => .raise .indexError

/-! ## `read_efield` (lines 30–66)

The file parsing itself (`open`, `split`, `float`) is I/O glue; a parsed
line is a record of six rationals (three position coordinates, three field
components).  `np.argsort` on the z column is modelled by a sort of the
index list `[0, …, 999]`; `np.argsort`'s default introsort is not stable,
so any index permutation that makes the z column ascending is a faithful
model.  The normalisation `efn[k] = ef[k] / enor[k]` involves a real square
root, so the normalised array lives over ℝ. -/

/-- One parsed line of the E-field file: positions `line[0..2]` and field
components `line[3..5]`. -/
structure EfRow where
  px : ℚ
  py : ℚ
  pz : ℚ
  f1 : ℚ
  f2 : ℚ
  f3 : ℚ
  deriving DecidableEq, Repr

/-- A row of the preallocated `np.zeros([1000, 3])` arrays. -/
def zeroRow : EfRow := ⟨0, 0, 0, 0, 0, 0⟩

abbrev Vec3 := ℚ × ℚ × ℚ

abbrev RVec3 := ℝ × ℝ × ℝ

def v0 : Vec3 := (0, 0, 0)

noncomputable def rv0 : RVec3 := (0, 0, 0)

/-- Line 40: `pos[k, ...] = float(line[0]), float(line[1]), float(line[2])`. -/
def posOf (r : EfRow) : Vec3 := (r.px, r.py, r.pz)

/-- Line 41: `ef[k, ...] = -float(line[3]), -float(line[4]), -float(line[5])`. -/
def efOf (r : EfRow) : Vec3 := (-r.f1, -r.f2, -r.f3)

/-- Line 44: `enor[k] = sqrt(ef[k,0]**2 + ef[k,1]**2 + ef[k,2]**2)`. -/
noncomputable def enorOf (r : EfRow) : ℝ :=
  Real.sqrt (((efOf r).1 : ℝ) ^ 2 + ((efOf r).2.1 : ℝ) ^ 2 + ((efOf r).2.2 : ℝ) ^ 2)

/-- Line 45: `efn[k, ...] = ef[k, ...] / enor[k]`. -/
noncomputable def efnOf (r : EfRow) : RVec3 :=
  (((efOf r).1 : ℝ) / enorOf r, ((efOf r).2.1 : ℝ) / enorOf r, ((efOf r).2.2 : ℝ) / enorOf r)

/-- Euclidean norm of a real 3-vector. -/
noncomputable def rnorm (v : RVec3) : ℝ := Real.sqrt (v.1 ^ 2 + v.2.1 ^ 2 + v.2.2 ^ 2)

/-- The `np.zeros([1000, 3])` preallocation (lines 31–33): rows past the
parsed file content stay zero; a file with more than 1000 lines raises
`IndexError` at `pos[k, ...]`, modelled as `none` in `read_efield`. -/
def paddedOf (rows : List EfRow) : List EfRow :=
  rows ++ List.replicate (1000 - rows.length) zeroRow

def padRows (rows : List EfRow) : Option (List EfRow) :=
  if rows.length ≤ 1000 then some (paddedOf rows) else none

/-- z coordinate of the `i`-th entry of a position array. -/
def zci (ps : List Vec3) (i : Nat) : ℚ := (ps.getD i v0).2.2

/-- Line 49: `ids = np.argsort(pos[..., 2])`. -/
def argsortZ (ps : List Vec3) : List Nat :=
  (List.range ps.length).mergeSort (fun i j => decide (zci ps i ≤ zci ps j))

/-- Fancy indexing `a[ids, ...]`. -/
def permute {α : Type} (ids : List Nat) (l : List α) (d : α) : List α :=
  ids.map (fun i => l.getD i d)

/-- Python slicing step: `l[::s]` for `s ≥ 1`. -/
def everyNth {α : Type} : List α → Nat → List α
  | [], _ => []
  | a :: t, s => a :: everyNth (t.drop (s - 1)) s
termination_by l _ => l.length
decreasing_by simp; omega

/-- Lines 56–66: `a[:ini]` stacked (via `np.vstack`) onto `a[ini::stp]`
with `ini = 200` and `stp = 1`. -/
def splitStack {α : Type} (l : List α) : List α :=
  l.take 200 ++ everyNth (l.drop 200) 1

/-- The z-sorted position array `pos_s` (lines 49–51). -/
def sortedPos (rows : List EfRow) : List Vec3 :=
  let pos := (paddedOf rows).map posOf
  permute (argsortZ pos) pos v0

/-- The z-sorted field array `ef_s` (line 52). -/
def sortedEf (rows : List EfRow) : List Vec3 :=
  let pos := (paddedOf rows).map posOf
  permute (argsortZ pos) ((paddedOf rows).map efOf) v0

/-- The z-sorted normalised array `efn_s` (line 53). -/
noncomputable def sortedEfn (rows : List EfRow) : List RVec3 :=
  let pos := (paddedOf rows).map posOf
  permute (argsortZ pos) ((paddedOf rows).map efnOf) rv0

/-- `read_efield` (lines 30–66) on the parsed rows of a file: build the
position, field and normalised-field arrays, sort all three by the z
coordinate, split each at index 200 and re-stack. -/
noncomputable def read_efield (rows : List EfRow) : Option (List Vec3 × List Vec3 × List RVec3) :=
  (padRows rows).map (fun _ =>
    (splitStack (sortedPos rows), splitStack (sortedEf rows), splitStack (sortedEfn rows)))

/-! ## Helper lemmas: lists, projections, rescaling -/

theorem getD_replicate (k i : Nat) (q d : ℚ) (h : i < k) :
    (List.replicate k q).getD i d = q := by
  induction k generalizing i with
  | zero => omega
  | succ k ih =>
    cases i with
    | zero => simp [List.replicate]
    | succ i => simpa [List.replicate] using ih i (by omega)

theorem localMaxAux_replicate (k : Nat) (q : ℚ) :
    ∀ fuel i, localMaxAux (List.replicate k q) (k - 1) fuel i = [] := by
  intro fuel
  induction fuel with
  | zero => intro i; simp [localMaxAux]
  | succ f ih =>
    intro i
    by_cases hi : i < k - 1
    · have h1 : (List.replicate k q).getD (i - 1) 0 = q := getD_replicate _ _ _ _ (by omega)
      have h2 : (List.replicate k q).getD i 0 = q := getD_replicate _ _ _ _ (by omega)
      simp only [localMaxAux, if_pos hi, h1, h2, lt_irrefl, if_false, ih]
    · simp only [localMaxAux, if_neg hi]

theorem findPeaks_replicate (k : Nat) (q h : ℚ) : findPeaks (List.replicate k q) h = [] := by
  simp [findPeaks, localMaxima, localMaxAux_replicate]

theorem dotV_smulV (c : ℚ) (u : List ℚ) : ∀ y, dotV u (smulV c y) = c * dotV u y := by
  induction u with
  | nil => intro y; simp [dotV, smulV]
  | cons a u ih =>
    intro y
    cases y with
    | nil => simp [dotV, smulV]
    | cons b y =>
      have h := ih y
      simp only [dotV, smulV, List.map_cons, List.zipWith_cons_cons, List.sum_cons] at h ⊢
      rw [h]; ring

theorem smulV_addV (c : ℚ) (u : List ℚ) : ∀ v, addV (smulV c u) (smulV c v) = smulV c (addV u v) := by
  induction u with
  | nil => intro v; simp [addV, smulV]
  | cons a u ih =>
    intro v
    cases v with
    | nil => simp [addV, smulV]
    | cons b v =>
      simp only [addV, smulV, List.map_cons, List.zipWith_cons_cons] at ih ⊢
      rw [ih]; ring_nf

theorem smulV_smulV (c d : ℚ) (v : List ℚ) : smulV c (smulV d v) = smulV (c * d) v := by
  simp only [smulV, List.map_map]
  apply List.map_congr_left
  intro q _
  simp [Function.comp, mul_assoc]

theorem projStep_smul (c : ℚ) (y acc u : List ℚ) :
    projStep (smulV c y) (smulV c acc) u = smulV c (projStep y acc u) := by
  unfold projStep
  by_cases h : dotV u u = 0
  · simp [h]
  · rw [if_neg h, if_neg h, dotV_smulV, mul_div_assoc, ← smulV_smulV, smulV_addV]

theorem projFold_smul (c : ℚ) (y : List ℚ) :
    ∀ (us : List (List ℚ)) (acc : List ℚ),
      us.foldl (projStep (smulV c y)) (smulV c acc) = smulV c (us.foldl (projStep y) acc) := by
  intro us
  induction us with
  | nil => intro acc; simp
  | cons u us ih =>
    intro acc
    simp only [List.foldl_cons]
    rw [projStep_smul, ih]

theorem smulV_replicate_zero (c : ℚ) (m : Nat) :
    smulV c (List.replicate m 0) = List.replicate m 0 := by
  simp [smulV]

theorem projColumns_smul (us : List (List ℚ)) (m : Nat) (c : ℚ) (y : List ℚ) :
    projColumns us m (smulV c y) = smulV c (projColumns us m y) := by
  unfold projColumns
  rw [← smulV_replicate_zero c m, projFold_smul, smulV_replicate_zero]

theorem polyfitEval_smulV (x y : List ℚ) (n : Nat) (c : ℚ) :
    polyfitEval x (smulV c y) n = smulV c (polyfitEval x y n) := by
  unfold polyfitEval
  exact projColumns_smul _ _ _ _

theorem map_min_comm (f : ℚ → ℚ) (hf : Monotone f) (a b : ℚ) :
    min (f a) (f b) = f (min a b) := by
  rcases le_total a b with h | h
  · rw [min_eq_left (hf h), min_eq_left h]
  · rw [min_eq_right (hf h), min_eq_right h]

theorem map_max_comm (f : ℚ → ℚ) (hf : Monotone f) (a b : ℚ) :
    max (f a) (f b) = f (max a b) := by
  rcases le_total a b with h | h
  · rw [max_eq_right (hf h), max_eq_right h]
  · rw [max_eq_left (hf h), max_eq_left h]

theorem foldl_min_map (f : ℚ → ℚ) (hf : Monotone f) :
    ∀ (l : List ℚ) (a : ℚ), (l.map f).foldl min (f a) = f (l.foldl min a) := by
  intro l
  induction l with
  | nil => intro a; simp
  | cons b l ih =>
    intro a
    simp only [List.map_cons, List.foldl_cons]
    rw [map_min_comm f hf, ih]

theorem foldl_max_map (f : ℚ → ℚ) (hf : Monotone f) :
    ∀ (l : List ℚ) (a : ℚ), (l.map f).foldl max (f a) = f (l.foldl max a) := by
  intro l
  induction l with
  | nil => intro a; simp
  | cons b l ih =>
    intro a
    simp only [List.map_cons, List.foldl_cons]
    rw [map_max_comm f hf, ih]

theorem listMin_map (f : ℚ → ℚ) (hf : Monotone f) (l : List ℚ) (hl : l ≠ []) :
    listMin (l.map f) = f (listMin l) := by
  cases l with
  | nil => exact absurd rfl hl
  | cons a l => simp only [List.map_cons, listMin]; exact foldl_min_map f hf l a

theorem listMax_map (f : ℚ → ℚ) (hf : Monotone f) (l : List ℚ) (hl : l ≠ []) :
    listMax (l.map f) = f (listMax l) := by
  cases l with
  | nil => exact absurd rfl hl
  | cons a l => simp only [List.map_cons, listMax]; exact foldl_max_map f hf l a

theorem listMin_smulV (c : ℚ) (hc : 0 ≤ c) (l : List ℚ) :
    listMin (smulV c l) = c * listMin l := by
  cases l with
  | nil => simp [smulV, listMin]
  | cons a l =>
    exact listMin_map (fun q => c * q) (monotone_mul_left_of_nonneg hc) (a :: l) (by simp)

theorem listMax_smulV (c : ℚ) (hc : 0 ≤ c) (l : List ℚ) :
    listMax (smulV c l) = c * listMax l := by
  cases l with
  | nil => simp [smulV, listMax]
  | cons a l =>
    exact listMax_map (fun q => c * q) (monotone_mul_left_of_nonneg hc) (a :: l) (by simp)

theorem rescale_smulV (c : ℚ) (hc : 0 < c) (l : List ℚ) (hm : listMin l = 0) :
    rescaleCurve (smulV c l) = rescaleCurve l := by
  have hmin : listMin (smulV c l) = 0 := by rw [listMin_smulV c hc.le l, hm, mul_zero]
  have hmax : listMax (smulV c l) = c * listMax l := listMax_smulV c hc.le l
  simp only [rescaleCurve, hmin, hmax, hm, sub_zero, mul_one, zero_add]
  rw [smulV, List.map_map]
  apply List.map_congr_left
  intro v _
  exact mul_div_mul_left v (listMax l) hc.ne'

theorem foldl_min_replicate (m : ℚ) : ∀ j, List.foldl min m (List.replicate j m) = m := by
  intro j
  induction j with
  | zero => rfl
  | succ j ih => simpa [List.replicate, min_self] using ih

theorem foldl_max_replicate (m : ℚ) : ∀ j, List.foldl max m (List.replicate j m) = m := by
  intro j
  induction j with
  | zero => rfl
  | succ j ih => simpa [List.replicate, max_self] using ih

theorem listMin_replicate (k : Nat) (hk : k ≠ 0) (m : ℚ) :
    listMin (List.replicate k m) = m := by
  cases k with
  | zero => exact absurd rfl hk
  | succ j =>
    simp only [List.replicate, listMin]
    exact foldl_min_replicate m j

theorem listMax_replicate (k : Nat) (hk : k ≠ 0) (m : ℚ) :
    listMax (List.replicate k m) = m := by
  cases k with
  | zero => exact absurd rfl hk
  | succ j =>
    simp only [List.replicate, listMax]
    exact foldl_max_replicate m j

theorem fwhm_no_peaks (x y : List ℚ) (n : Nat) (v : Bool)
    (h2 : 2 ≤ x.length) (hl : x.length = y.length)
    (hp : detectedPeaks x y n = []) :
    fwhm_efield x y n v = .raise .indexError := by
  match x, h2 with
  | x0 :: x1 :: rest, _ =>
    simp only [fwhm_efield, halfWidthsOf, hp, List.map_nil, if_pos hl]

/-! ## Helper lemmas for `read_efield` -/

theorem everyNth_one {α : Type} (l : List α) : everyNth l 1 = l := by
  induction l with
  | nil => simp [everyNth]
  | cons a t ih => simpa [everyNth] using ih

theorem splitStack_eq {α : Type} (l : List α) : splitStack l = l := by
  rw [splitStack, everyNth_one, List.take_append_drop]

theorem getD_map_range {α : Type} (l : List α) (d : α) :
    (List.range l.length).map (fun i => l.getD i d) = l := by
  induction l with
  | nil => simp
  | cons a t ih =>
    rw [List.length_cons, List.range_succ_eq_map, List.map_cons, List.map_map]
    exact congrArg (List.cons a) ih

theorem permute_perm {α : Type} (ids : List Nat) (l : List α) (d : α)
    (h : ids.Perm (List.range l.length)) : (permute ids l d).Perm l := by
  have hm := h.map (fun i => l.getD i d)
  rw [getD_map_range] at hm
  exact hm

theorem argsortZ_perm (ps : List Vec3) : (argsortZ ps).Perm (List.range ps.length) :=
  List.mergeSort_perm _ _

theorem argsortZ_sorted (ps : List Vec3) :
    List.Pairwise (fun i j => zci ps i ≤ zci ps j) (argsortZ ps) := by
  have h := @List.sorted_mergeSort Nat (fun i j => decide (zci ps i ≤ zci ps j))
    (fun a b c h1 h2 => by
      simp only [decide_eq_true_iff] at h1 h2 ⊢
      exact le_trans h1 h2)
    (fun a b => by
      simp only [Bool.or_eq_true, decide_eq_true_iff]
      exact le_total _ _)
    (List.range ps.length)
  exact h.imp (fun hab => of_decide_eq_true hab)

theorem sortedPos_pairwise (rows : List EfRow) :
    List.Pairwise (fun a b : Vec3 => a.2.2 ≤ b.2.2) (sortedPos rows) := by
  unfold sortedPos permute
  rw [List.pairwise_map]
  exact argsortZ_sorted _

theorem getD_padded_map {β : Type} (rows : List EfRow) (f : EfRow → β) (k : Nat)
    (h : k < rows.length) (d : β) :
    ((paddedOf rows).map f).getD k d = f (rows.getD k zeroRow) := by
  rw [List.getD_eq_getElem?_getD, List.getElem?_map, paddedOf, List.getElem?_append,
    if_pos h, List.getElem?_eq_getElem h, List.getD_eq_getElem?_getD,
    List.getElem?_eq_getElem h]
  simp

theorem rnorm_unit (a b c : ℝ) (h : 0 < a ^ 2 + b ^ 2 + c ^ 2) :
    rnorm (a / Real.sqrt (a ^ 2 + b ^ 2 + c ^ 2), b / Real.sqrt (a ^ 2 + b ^ 2 + c ^ 2),
      c / Real.sqrt (a ^ 2 + b ^ 2 + c ^ 2)) = 1 := by
  have hn : 0 < Real.sqrt (a ^ 2 + b ^ 2 + c ^ 2) := Real.sqrt_pos.mpr h
  unfold rnorm
  rw [div_pow, div_pow, div_pow, div_add_div_same, div_add_div_same,
    Real.sqrt_div h.le, Real.sqrt_sq hn.le, div_self hn.ne']

/-! ## Claim theorems -/

set_option maxRecDepth 4000

/-- C1 (amended): on every successful call, `fwhm_efield` returns the first
detected peak's width multiplied by the sampling step `Δ = x[1] − x[0]` as
the scalar FWHM, the per-peak evaluation heights (`half_widths[1]`, not the
widths in index units) as the second component, and the rounded left/right
interpolated crossing positions of all detected peaks (arrays with one
entry per peak, not single integers) as the last two components. -/
theorem fwhm_result_structure (x y : List ℚ) (n : Nat) (v : Bool) (r : FwhmResult)
    (h : fwhm_efield x y n v = .ok r) :
    r.yfwhm.length = (detectedPeaks x y n).length ∧
    r.t1_ind.length = (detectedPeaks x y n).length ∧
    r.t2_ind.length = (detectedPeaks x y n).length ∧
    r.yfwhm = (halfWidthsOf x y n).map (fun w => w.wHeight) ∧
    r.t1_ind = (halfWidthsOf x y n).map (fun w => w.leftIp.roundEven) ∧
    r.t2_ind = (halfWidthsOf x y n).map (fun w => w.rightIp.roundEven) ∧
    ∃ w ws, halfWidthsOf x y n = w :: ws ∧
      r.xfwhm = Qr2.smul (x.getD 1 0 - x.getD 0 0) w.width := by
  cases x with
  | nil => simp [fwhm_efield] at h
  | cons x0 t =>
    cases t with
    | nil => simp [fwhm_efield] at h
    | cons x1 rest =>
      simp only [fwhm_efield] at h
      split at h
      · rcases hhw : halfWidthsOf (x0 :: x1 :: rest) y n with _ | ⟨w, ws⟩
        · rw [hhw] at h
          simp at h
        · rw [hhw] at h
          simp only [FwhmOut.ok.injEq] at h
          subst h
          refine ⟨?_, ?_, ?_, rfl, rfl, rfl, w, ws, rfl, rfl⟩ <;>
            simp [← hhw, halfWidthsOf]
      · exact FwhmOut.noConfusion h

/-- C1 (counterexample): a profile whose fitted curve has two peaks above
the height threshold; the returned boundary components are two-element
arrays (one entry per peak), not single integers from the first peak. -/
theorem fwhm_two_peak_arrays :
    fwhm_efield [0, 1, 2, 3, 4] [0, 1, 0, 9/10, 0] 4 true =
      .ok ⟨⟨2, -1⟩, [⟨0, 1/2⟩, ⟨0, 9/20⟩], [1, 3], [1, 3]⟩ ∧
    ([1, 3] : List Int).length ≠ 1 ∧
    (⟨0, 1/2⟩ : Qr2) ≠ ⟨2, -1⟩ := by decide

/-- C1 (witness): the structure theorem applied to a concrete two-peak
profile. -/
theorem fwhm_result_structure_witness :
    (⟨⟨2, -1⟩, [⟨0, 1/2⟩, ⟨0, 9/20⟩], [1, 3], [1, 3]⟩ : FwhmResult).t1_ind.length =
      (detectedPeaks [0, 1, 2, 3, 4] [0, 1, 0, 9/10, 0] 4).length :=
  (fwhm_result_structure [0, 1, 2, 3, 4] [0, 1, 0, 9/10, 0] 4 true _ (by decide)).2.1

/-- C2 (amended): a flat-line profile does not raise a catchable
`DegenerateFit` — no such error kind exists in the code.  The rescaling
divides by the zero peak-to-peak range (`0.0/0.0`, a NaN with a
`RuntimeWarning` in numpy; `0` in the rational model — either way the curve
has no strict local maximum), no peak is detected, and the call fails with
a generic `IndexError` at `half_widths[0][0]`. -/
theorem fwhm_flat_profile_indexError (m : ℚ) (v : Bool) :
    fwhm_efield [0, 1, 2, 3, 4] (List.replicate 5 m) 20 v = .raise .indexError := by
  have hfit : polyfitEval [0, 1, 2, 3, 4] (List.replicate 5 m) 20 = List.replicate 5 m := by
    have h1 : (List.replicate 5 m) = smulV m (List.replicate 5 (1 : ℚ)) := by
      simp [smulV]
    rw [h1, polyfitEval_smulV]
    have h2 : polyfitEval [0, 1, 2, 3, 4] (List.replicate 5 (1 : ℚ)) 20 = List.replicate 5 1 := by
      decide
    rw [h2]
  have hresc : rescaleCurve (List.replicate 5 m) = List.replicate 5 m := by
    have hmin := listMin_replicate 5 (by decide) m
    have hmax := listMax_replicate 5 (by decide) m
    simp only [rescaleCurve, hmin, hmax, List.map_replicate, sub_self, zero_mul,
      zero_div, add_zero]
  have hpeaks : detectedPeaks [0, 1, 2, 3, 4] (List.replicate 5 m) 20 = [] := by
    simp only [detectedPeaks, yFitAbsOf, yFitOf, hfit, hresc, List.map_replicate]
    exact findPeaks_replicate 5 |m| (1 / 2)
  exact fwhm_no_peaks _ _ _ _ (by decide) (by simp) hpeaks

/-- C2 (counterexample): the flat profile raises the generic `IndexError`,
not a distinct catchable error kind. -/
theorem fwhm_flat_no_degenerateFit :
    fwhm_efield [0, 1, 2, 3, 4] [7/2, 7/2, 7/2, 7/2, 7/2] 20 true = .raise .indexError := by
  decide

/-- C3 (amended): when no local maximum of the rescaled absolute curve
reaches the height threshold 0.5 the peak list is empty, and the failure is
the generic `IndexError` raised by `half_widths[0][0]` on an empty array —
there is no distinct `NoPeakDetected` error kind in the code. -/
theorem fwhm_no_peak_indexError (x y : List ℚ) (n : Nat) (v : Bool)
    (h2 : 2 ≤ x.length) (hl : x.length = y.length)
    (hp : detectedPeaks x y n = []) :
    fwhm_efield x y n v = .raise .indexError :=
  fwhm_no_peaks x y n v h2 hl hp

/-- C3 (counterexample): a profile whose only local maximum stays below 0.5
after normalisation; the call raises the generic `IndexError`. -/
theorem fwhm_low_peak_no_noPeakDetected :
    detectedPeaks [0, 1, 2, 3, 4] [0, 3/10, 1/5, 2/5, 1] 20 = [] ∧
    fwhm_efield [0, 1, 2, 3, 4] [0, 3/10, 1/5, 2/5, 1] 20 true = .raise .indexError := by
  decide

/-- C3 (witness): the no-peak theorem applied to the concrete low-peak
profile. -/
theorem fwhm_no_peak_indexError_witness :
    fwhm_efield [0, 1, 2, 3, 4] [0, 3/10, 1/5, 2/5, 1] 20 false = .raise .indexError :=
  fwhm_no_peak_indexError [0, 1, 2, 3, 4] [0, 3/10, 1/5, 2/5, 1] 20 false
    (by decide) (by decide) (by decide)

/-- C4 (amended): `fwhm_efield` performs no degree validation at all: with
a degree greater than or equal to the number of samples the (rank
deficient) least-squares fit is still attempted — numpy only emits a
`RankWarning` — and the call returns an ordinary result, identical to the
full-rank interpolating fit. -/
theorem fwhm_degree_ge_samples_no_error (n : Nat) (v : Bool) (h5 : 5 ≤ n) (h6 : n ≤ 6) :
    fwhm_efield [0, 1, 2, 3, 4] [0, 1, 0, 0, 0] n v =
      .ok ⟨⟨2, -1⟩, [⟨0, 1/2⟩], [1], [1]⟩ := by
  have hn : n = 5 ∨ n = 6 := by omega
  rcases hn with rfl | rfl <;> cases v <;> decide

/-- C4 (counterexample): degree 5 on a 5-sample profile returns a normal
result instead of signalling any error. -/
theorem fwhm_degree_ge_samples_ok :
    fwhm_efield [0, 1, 2, 3, 4] [0, 1, 0, 0, 0] 5 true =
      .ok ⟨⟨2, -1⟩, [⟨0, 1/2⟩], [1], [1]⟩ ∧
    ([0, 1, 2, 3, 4] : List ℚ).length ≤ 5 := by decide

/-- C4 (witness): the amended theorem applied at degree 6. -/
theorem fwhm_degree_ge_samples_witness :
    fwhm_efield [0, 1, 2, 3, 4] [0, 1, 0, 0, 0] 6 false =
      .ok ⟨⟨2, -1⟩, [⟨0, 1/2⟩], [1], [1]⟩ :=
  fwhm_degree_ge_samples_no_error 6 false (by decide) (by decide)

/-- C5 (amended): the rescaling step computes exactly the formula
`y' = min + (y − min)·(1 − min)/(max − min)`; whenever the curve minimum is
at most 1 (in particular in the intended regime of curves normalised
towards peak 1) the minimum is preserved and the maximum becomes exactly 1.
For `min > 1` the map is decreasing and the conclusion fails. -/
theorem rescale_min_max (l : List ℚ) (hne : l ≠ [])
    (hlt : listMin l < listMax l) (h1 : listMin l ≤ 1) :
    rescaleCurve l =
      l.map (fun v => listMin l + ((v - listMin l) * (1 - listMin l)) / (listMax l - listMin l)) ∧
    listMin (rescaleCurve l) = listMin l ∧
    listMax (rescaleCurve l) = 1 := by
  refine ⟨rfl, ?_⟩
  rcases eq_or_lt_of_le h1 with heq | hlt1
  · -- listMin l = 1: the slope is zero and every value is mapped to 1
    have hone : (1 : ℚ) - listMin l = 0 := by rw [← heq]; ring
    have hg : rescaleCurve l = l.map (fun _ => listMin l) := by
      simp only [rescaleCurve]
      apply List.map_congr_left
      intro v _
      rw [hone, mul_zero, zero_div, add_zero]
    constructor
    · rw [hg, listMin_map (fun _ => listMin l) monotone_const l hne]
    · rw [hg, listMax_map (fun _ => listMin l) monotone_const l hne, ← heq]
  · -- listMin l < 1: the map is a monotone affine function
    have hMm : (0 : ℚ) < listMax l - listMin l := sub_pos.mpr hlt
    have h1m : (0 : ℚ) ≤ 1 - listMin l := by linarith
    have hmono :
        Monotone (fun v : ℚ =>
          listMin l + ((v - listMin l) * (1 - listMin l)) / (listMax l - listMin l)) := by
      intro u w huw
      have hnum : (u - listMin l) * (1 - listMin l) ≤ (w - listMin l) * (1 - listMin l) :=
        mul_le_mul_of_nonneg_right (by linarith) h1m
      exact add_le_add_left ((div_le_div_iff_of_pos_right hMm).mpr hnum) _
    have hrw :
        rescaleCurve l =
          l.map (fun v =>
            listMin l + ((v - listMin l) * (1 - listMin l)) / (listMax l - listMin l)) := rfl
    constructor
    · rw [hrw, listMin_map _ hmono l hne]
      simp only [sub_self, zero_mul, zero_div, add_zero]
    · rw [hrw, listMax_map _ hmono l hne,
        mul_div_cancel_left₀ (1 - listMin l) hMm.ne']
      ring

/-- C5 (counterexample): a fitted curve with minimum above 1 — the rescaled
curve `[2, 1]` has neither the original minimum nor maximum 1. -/
theorem rescale_min_above_one_cex :
    rescaleCurve [2, 3] = [2, 1] ∧
    ¬ (listMin (rescaleCurve [2, 3]) = listMin [2, 3] ∧
       listMax (rescaleCurve [2, 3]) = 1) := by decide

/-- C5 (witness): the amended rescaling theorem at a concrete curve. -/
theorem rescale_min_max_witness :
    listMin (rescaleCurve [0, 1/2]) = listMin [0, 1/2] ∧
    listMax (rescaleCurve [0, 1/2]) = 1 :=
  (rescale_min_max [0, 1/2] (by decide) (by decide) (by decide)).2

/-- C6 (amended): scaling all amplitudes by a positive constant leaves the
result of `fwhm_efield` unchanged whenever the fitted curve's minimum is
zero (zero baseline).  In general the rescaling of line 77 does not commute
with amplitude scaling — a nonzero fitted minimum rescales differently —
and the returned FWHM can change (see the counterexample). -/
theorem fwhm_scale_invariant_zero_min (x y : List ℚ) (n : Nat) (v : Bool) (c : ℚ)
    (hc : 0 < c) (hmin : listMin (polyfitEval x y n) = 0) :
    fwhm_efield x (smulV c y) n v = fwhm_efield x y n v := by
  have hfit : yFitOf x (smulV c y) n = yFitOf x y n := by
    unfold yFitOf
    rw [polyfitEval_smulV, rescale_smulV c hc _ hmin]
  cases x with
  | nil => rfl
  | cons x0 t =>
    cases t with
    | nil => rfl
    | cons x1 rest =>
      have hlen : (smulV c y).length = y.length := by simp [smulV]
      simp only [fwhm_efield, halfWidthsOf, detectedPeaks, yFitAbsOf, hfit, hlen]

/-- C6 (counterexample): an asymmetric two-peak profile with a nonzero
baseline; halving the amplitudes drops the first peak below the height
threshold, and the returned FWHM changes from `13/7 − (13/14)√2` to
`31/15 − (31/30)√2`. -/
theorem fwhm_scale_changes_result :
    fwhm_efield [0, 1, 2, 3, 4] [1/5, 11/20, 1/4, 1, 1/5] 4 true =
      .ok ⟨⟨13/7, -(13/14)⟩, [⟨1/4, 3/20⟩, ⟨1/5, 2/5⟩], [1, 3], [1, 3]⟩ ∧
    fwhm_efield [0, 1, 2, 3, 4] (smulV (1/2) [1/5, 11/20, 1/4, 1, 1/5]) 4 true =
      .ok ⟨⟨31/15, -(31/30)⟩, [⟨1/10, 9/20⟩], [3], [3]⟩ ∧
    (⟨13/7, -(13/14)⟩ : Qr2) ≠ ⟨31/15, -(31/30)⟩ := by decide

/-- C6 (witness): the zero-baseline invariance theorem at a concrete
triangular profile scaled by 2. -/
theorem fwhm_scale_invariant_witness :
    fwhm_efield [0, 1, 2] (smulV 2 [0, 1, 0]) 2 true = fwhm_efield [0, 1, 2] [0, 1, 0] 2 true :=
  fwhm_scale_invariant_zero_min [0, 1, 2] [0, 1, 0] 2 true 2 (by decide) (by decide)

/-- C7: `fwhm_efield` is deterministic — the result is a function of the
four arguments only, so two calls on identical inputs return identical
outputs. -/
theorem fwhm_deterministic (x y x' y' : List ℚ) (n n' : Nat) (v v' : Bool)
    (hx : x = x') (hy : y = y') (hn : n = n') (hv : v = v') :
    fwhm_efield x y n v = fwhm_efield x' y' n' v' := by
  subst hx; subst hy; subst hn; subst hv; rfl

/-- C7 (witness): two identical calls at a concrete input. -/
theorem fwhm_deterministic_witness :
    fwhm_efield [0, 1] [1, 2] 1 false = fwhm_efield [0, 1] [1, 2] 1 false :=
  fwhm_deterministic [0, 1] [1, 2] [0, 1] [1, 2] 1 1 false false rfl rfl rfl rfl

/-- C8: the visualization flag `id_vis` only controls the plotting side
effect (lines 94–107) and has no influence on the returned tuple. -/
theorem fwhm_vis_flag_no_effect (x y : List ℚ) (n : Nat) :
    fwhm_efield x y n true = fwhm_efield x y n false := rfl

/-- C9: the split of the z-sorted arrays at index 200 and the re-stacking
with step 1 (lines 56–66) is an identity: `read_efield` returns exactly the
full z-sorted position, field and normalised-field arrays — the z column of
the result is ascending, and each returned array is a permutation of the
corresponding full (zero-padded) array, with no row dropped, duplicated or
reordered by the slicing step. -/
theorem read_efield_sorted_slicing_identity (rows : List EfRow) (h : rows.length ≤ 1000) :
    read_efield rows = some (sortedPos rows, sortedEf rows, sortedEfn rows) ∧
    List.Pairwise (fun a b : Vec3 => a.2.2 ≤ b.2.2) (sortedPos rows) ∧
    (sortedPos rows).Perm ((paddedOf rows).map posOf) ∧
    (sortedEf rows).Perm ((paddedOf rows).map efOf) ∧
    (sortedEfn rows).Perm ((paddedOf rows).map efnOf) := by
  refine ⟨?_, sortedPos_pairwise rows, ?_, ?_, ?_⟩
  · simp only [read_efield, padRows, if_pos h, Option.map_some', splitStack_eq]
  · exact permute_perm _ _ _ (argsortZ_perm _)
  · refine permute_perm _ _ _ ?_
    have hp := argsortZ_perm ((paddedOf rows).map posOf)
    simpa [List.length_map] using hp
  · refine permute_perm _ _ _ ?_
    have hp := argsortZ_perm ((paddedOf rows).map posOf)
    simpa [List.length_map] using hp

/-- C9 (witness): the sorting/slicing theorem applied to a concrete file
content. -/
theorem read_efield_sorted_witness :
    read_efield [zeroRow] =
      some (sortedPos [zeroRow], sortedEf [zeroRow], sortedEfn [zeroRow]) ∧
    List.Pairwise (fun a b : Vec3 => a.2.2 ≤ b.2.2) (sortedPos [zeroRow]) ∧
    (sortedPos [zeroRow]).Perm ((paddedOf [zeroRow]).map posOf) ∧
    (sortedEf [zeroRow]).Perm ((paddedOf [zeroRow]).map efOf) ∧
    (sortedEfn [zeroRow]).Perm ((paddedOf [zeroRow]).map efnOf) :=
  read_efield_sorted_slicing_identity [zeroRow] (by decide)

/-- C10: every row filled from the input file stores the negation of the
three field values of its line; the corresponding normalised row is that
vector divided by its Euclidean norm, and it has norm exactly 1 whenever
the field vector is nonzero. -/
theorem read_efield_normalisation (rows : List EfRow) (k : Nat) (h : k < rows.length)
    (hnz : efOf (rows.getD k zeroRow) ≠ (0, 0, 0)) :
    ((paddedOf rows).map efOf).getD k v0 =
      (-(rows.getD k zeroRow).f1, -(rows.getD k zeroRow).f2, -(rows.getD k zeroRow).f3) ∧
    ((paddedOf rows).map efnOf).getD k rv0 =
      (((efOf (rows.getD k zeroRow)).1 : ℝ) / enorOf (rows.getD k zeroRow),
       ((efOf (rows.getD k zeroRow)).2.1 : ℝ) / enorOf (rows.getD k zeroRow),
       ((efOf (rows.getD k zeroRow)).2.2 : ℝ) / enorOf (rows.getD k zeroRow)) ∧
    rnorm (((paddedOf rows).map efnOf).getD k rv0) = 1 := by
  have h1 : ((paddedOf rows).map efOf).getD k v0 = efOf (rows.getD k zeroRow) :=
    getD_padded_map rows efOf k h v0
  have h2 : ((paddedOf rows).map efnOf).getD k rv0 = efnOf (rows.getD k zeroRow) :=
    getD_padded_map rows efnOf k h rv0
  refine ⟨by rw [h1]; rfl, by rw [h2]; rfl, ?_⟩
  rw [h2]
  have hcomp : (efOf (rows.getD k zeroRow)).1 ≠ 0 ∨ (efOf (rows.getD k zeroRow)).2.1 ≠ 0 ∨
      (efOf (rows.getD k zeroRow)).2.2 ≠ 0 := by
    by_contra hcon
    push_neg at hcon
    exact hnz (Prod.ext hcon.1 (Prod.ext hcon.2.1 hcon.2.2))
  have hpos : 0 < ((efOf (rows.getD k zeroRow)).1 : ℝ) ^ 2 +
      ((efOf (rows.getD k zeroRow)).2.1 : ℝ) ^ 2 + ((efOf (rows.getD k zeroRow)).2.2 : ℝ) ^ 2 := by
    rcases hcomp with h' | h' | h'
    all_goals
      have hr : ((_ : ℚ) : ℝ) ≠ 0 := Rat.cast_ne_zero.mpr h'
      have hsq := lt_of_le_of_ne (sq_nonneg _) (Ne.symm (pow_ne_zero 2 hr))
      nlinarith [sq_nonneg (((efOf (rows.getD k zeroRow)).1 : ℝ)),
        sq_nonneg (((efOf (rows.getD k zeroRow)).2.1 : ℝ)),
        sq_nonneg (((efOf (rows.getD k zeroRow)).2.2 : ℝ))]
  exact rnorm_unit _ _ _ hpos

/-- C10 (witness): a concrete row with field vector `(3, 4, 0)` — the
stored normalised row has norm exactly 1. -/
theorem read_efield_normalisation_witness :
    rnorm (((paddedOf [⟨0, 0, 0, -3, -4, 0⟩]).map efnOf).getD 0 rv0) = 1 :=
  (read_efield_normalisation [⟨0, 0, 0, -3, -4, 0⟩] 0 (by decide) (by decide)).2.2

end MtmsMri
